import Mathlib

/-!
Shallow embedding of the blockchain voting system.

The repository contains two overlapping implementations:
* `blockchain.py` (class `Block`, class `Blockchain`) together with
  `voting_system.py` (class `VotingSystem`), modelled in namespaces `BC` and `VS`;
* a second, self-contained copy inside `app.py` (classes `Block`, `Blockchain`,
  `VotingSystem`), modelled in namespace `App`.

The `Block` class is textually identical in both files, so it is modelled once.
SHA-256 of the canonical JSON serialization is modelled by an abstract digest
function `HashFn` taking the five serialized fields; the unbounded
proof-of-work loop is modelled with explicit fuel, returning `none` when the
fuel runs out (in Python the loop simply keeps running, so states behind an
unfinished mining call are unreachable).  Timestamps (`time.time()`) are
abstract naturals supplied by the environment, and the token derivation
(`sha256(voter_id + time)[:12]`) is an abstract `TokenGen`.  Python dicts are
association lists (first match wins, insertion order kept), Python sets are
lists of members, and the dicts of counts returned by the tally functions are
total functions `String → Nat` with default 0 (`counts.get(c, 0)`).
-/

namespace BlockVote

/-- A transaction: either the genesis marker of `blockchain.py`
(the plain string `"Genesis Block"`), the genesis marker of `app.py`
(the dict `{"message": "Genesis Block"}`, which has neither a
`voter_id` nor a `candidate` key), or a vote dict
`{"type": "vote", "voter_id": ..., "candidate": ..., "timestamp": ...}`. -/
inductive Tx where
  | genesisStr : Tx
  | genesisMsg : Tx
  | vote (voter_id : String) (candidate : String) (timestamp : Nat) : Tx
deriving DecidableEq, Repr

/-- The `Block` class (identical in `blockchain.py` and `app.py`). -/
structure Block where
  index : Nat
  transactions : List Tx
  timestamp : Nat
  previous_hash : String
  nonce : Nat
  hash : String
deriving DecidableEq, Repr

/-- Abstract digest of the canonically serialized block fields
(`json.dumps({... sort_keys=True})` followed by SHA-256 in the source). -/
abbrev HashFn := Nat → List Tx → Nat → String → Nat → String

/-- Abstract token derivation: `hashlib.sha256(f"{voter_id}{time.time()}")[:12]`. -/
abbrev TokenGen := String → Nat → String

/-- `Block.calculate_hash`: digest of the five stored fields. -/
def calculate_hash (hf : HashFn) (b : Block) : String :=
  hf b.index b.transactions b.timestamp b.previous_hash b.nonce

/-- `Block.__init__`: stores the four given fields, sets `nonce = 0` and
`hash = calculate_hash()`. -/
def mkBlock (hf : HashFn) (i : Nat) (txs : List Tx) (ts : Nat) (prev : String) : Block :=
  { index := i, transactions := txs, timestamp := ts, previous_hash := prev,
    nonce := 0, hash := hf i txs ts prev 0 }

/-- A string of `d` zero characters (`"0" * difficulty`). -/
def zeroPad (d : Nat) : String := String.mk (List.replicate d '0')

/-- The proof-of-work target: `hash[:difficulty] == "0" * difficulty`. -/
def meets_difficulty (d : Nat) (h : String) : Bool := h.take d == zeroPad d

/-- `Block.mine_block`: `while hash[:d] != "0"*d: nonce += 1; hash = calculate_hash()`.
The unbounded loop carries explicit fuel; `none` means the fuel ran out. -/
def mine_block (hf : HashFn) (d : Nat) : Nat → Block → Option Block
  | fuel, b =>
    if meets_difficulty d b.hash then some b
    else
      match fuel with
      | 0 => none
      | fuel + 1 =>
          mine_block hf d fuel
            { b with nonce := b.nonce + 1,
                     hash := hf b.index b.transactions b.timestamp b.previous_hash (b.nonce + 1) }

/-- Outcome of chain validation.  `is_chain_valid` returns a bare boolean, but
on failure it stops at the first failing index, which `blockchain.py` prints
(`"Block {i} hash is invalid!"` before the link check `"Block {i} previous
hash doesn't match!"`); this type records that first report. -/
inductive ChainResult where
  | valid : ChainResult
  | hashMismatch (i : Nat) : ChainResult
  | linkMismatch (i : Nat) : ChainResult
deriving DecidableEq, Repr

/-- The body of the `for i in range(1, len(chain))` loop of `is_chain_valid`:
`prev` is `chain[i-1]`, the head of the remaining list is `chain[i]`. -/
def validate_from (hf : HashFn) : Block → List Block → Nat → ChainResult
  | _, [], _ => .valid
  | prev, cur :: rest, i =>
    if cur.hash ≠ calculate_hash hf cur then .hashMismatch i
    else if cur.previous_hash ≠ prev.hash then .linkMismatch i
    else validate_from hf cur rest (i + 1)

/-- `Blockchain.is_chain_valid` with the first failure report kept. -/
def validate_chain (hf : HashFn) : List Block → ChainResult
  | [] => .valid
  | b :: rest => validate_from hf b rest 1

/-- `Blockchain.is_chain_valid`: the boolean actually returned. -/
def is_chain_valid (hf : HashFn) (c : List Block) : Bool :=
  match validate_chain hf c with
  | .valid => true
  | _ => false

/-- Does the transaction carry `voter_id == v`
(`isinstance(t, dict) and 'voter_id' in t and t['voter_id'] == v`)? -/
def isVoteBy (v : String) : Tx → Bool
  | .vote vid _ _ => vid == v
  | _ => false

/-- Does the transaction carry `candidate == c`? -/
def isVoteFor (c : String) : Tx → Bool
  | .vote _ cand _ => cand == c
  | _ => false

/-- Number of vote records with `voter_id == v` in a list of transactions. -/
def countBy (v : String) (txs : List Tx) : Nat := (txs.filter (isVoteBy v)).length

/-- Number of vote records with `candidate == c` in a list of transactions. -/
def countFor (c : String) (txs : List Tx) : Nat := (txs.filter (isVoteFor c)).length

/-- All transactions of a list of blocks, in block order
(`for block in chain: for t in block.transactions`). -/
def chainTxs (c : List Block) : List Tx := (c.map Block.transactions).flatten

/-- One step of the counting loops: `if isinstance(t, dict) and 'candidate' in t:
counts[t['candidate']] = counts.get(t['candidate'], 0) + 1`. -/
def countTx (m : String → Nat) : Tx → String → Nat
  | .vote _ cand _ => fun x => if x = cand then m x + 1 else m x
  | _ => m

/-- One step of `Blockchain.get_voter_votes`:
`if isinstance(t, dict) and 'voter_id' in t: votes[t['voter_id']] = t.get('candidate', 'Unknown')`. -/
def addVoterVote (m : String → Option String) : Tx → String → Option String
  | .vote vid cand _ => fun x => if x = vid then some cand else m x
  | _ => m

/-- `Blockchain.get_voter_votes` (blockchain.py): the dict voter_id → candidate
built over every transaction of every block. -/
def get_voter_votes (c : List Block) : String → Option String :=
  (chainTxs c).foldl addVoterVote (fun _ => none)

/-- `Blockchain.has_voter_voted` (blockchain.py): `voter_id in get_voter_votes()`. -/
def has_voter_voted (c : List Block) (vid : String) : Bool :=
  (get_voter_votes c vid).isSome

/-- `Blockchain.get_vote_counts` (blockchain.py): counts over every transaction
of every block of the chain (the pending pool is not visited). -/
def get_vote_counts (c : List Block) : String → Nat :=
  (chainTxs c).foldl countTx (fun _ => 0)

/-- First-match lookup in an association list, modelling `d[k]` / `d.get(k)`
on a Python dict with unique keys. -/
def dlookup {α : Type} : List (String × α) → String → Option α
  | [], _ => none
  | p :: rest, k => if p.1 = k then some p.2 else dlookup rest k

namespace BC

/-- The `Blockchain` class of `blockchain.py`: `chain`, `difficulty = 2`,
`pending_transactions`.  The genesis block is appended by `create_genesis_block`
during `__init__`, modelled by `init` below. -/
structure Blockchain where
  chain : List Block
  difficulty : Nat
  pending_transactions : List Tx
deriving DecidableEq, Repr

/-- `Blockchain.__init__` followed by `create_genesis_block`:
`Block(0, ["Genesis Block"], time.time(), "0")` mined at difficulty 2 and
appended to the empty chain.  `none` when the mining fuel runs out. -/
def init (hf : HashFn) (t fuel : Nat) : Option Blockchain :=
  (mine_block hf 2 fuel (mkBlock hf 0 [Tx.genesisStr] t "0")).map
    (fun g => { chain := [g], difficulty := 2, pending_transactions := [] })

/-- `Blockchain.add_transaction`: append to the pending pool, return `True`. -/
def add_transaction (ch : Blockchain) (tx : Tx) : Bool × Blockchain :=
  (true, { ch with pending_transactions := ch.pending_transactions ++ [tx] })

/-- `Blockchain.mine_pending_transactions` (blockchain.py): `False` and no
change on an empty pool; otherwise build `Block(len(chain), pending[:],
time.time(), get_latest_block().hash)`, mine it, append it, clear the pool and
return `True`.  `none` when `chain[-1]` would raise (empty chain) or the
mining fuel runs out. -/
def mine_pending_transactions (hf : HashFn) (ch : Blockchain) (t fuel : Nat) :
    Option (Bool × Blockchain) :=
  if ch.pending_transactions.isEmpty then some (false, ch)
  else
    match ch.chain.getLast? with
    | none => none
    | some last =>
      (mine_block hf ch.difficulty fuel
          (mkBlock hf ch.chain.length ch.pending_transactions t last.hash)).map
        (fun b => (true, { ch with chain := ch.chain ++ [b], pending_transactions := [] }))

end BC

namespace VS

/-- One entry of `VotingSystem.voters`: `{'token': token, 'voted': False}`. -/
structure VoterRec where
  token : String
  voted : Bool
deriving DecidableEq, Repr

/-- The `VotingSystem` class of `voting_system.py`. -/
structure Sys where
  blockchain : BC.Blockchain
  voters : List (String × VoterRec)
  pending_votes : List (String × Tx)
deriving DecidableEq, Repr

/-- `self.candidates = ["Alice", "Bob", "Charlie", "Diana"]`. -/
def candidates : List String := ["Alice", "Bob", "Charlie", "Diana"]

/-- `VotingSystem.__init__`: a fresh `Blockchain` and empty dicts. -/
def init (hf : HashFn) (t fuel : Nat) : Option Sys :=
  (BC.init hf t fuel).map (fun ch => { blockchain := ch, voters := [], pending_votes := [] })

/-- `VotingSystem.register_voter`: `raise Exception("Voter already registered")`
when the id is present (the `Except.error` branch — the exception escapes to
the caller), else store `{'token': token, 'voted': False}` and return the
token. -/
def register_voter (tg : TokenGen) (s : Sys) (vid : String) (t : Nat) :
    Except String String × Sys :=
  match dlookup s.voters vid with
  | some _ => (Except.error "Voter already registered", s)
  | none =>
    let token := tg vid t
    (Except.ok token, { s with voters := s.voters ++ [(vid, ⟨token, false⟩)] })

/-- `VotingSystem.verify_token`: `voter_id in voters and voters[voter_id]['token'] == token`. -/
def verify_token (s : Sys) (vid token : String) : Bool :=
  match dlookup s.voters vid with
  | some r => r.token == token
  | none => false

/-- In-place update `voters[voter_id]['voted'] = True`. -/
def markVoted : List (String × VoterRec) → String → List (String × VoterRec)
  | [], _ => []
  | p :: rest, vid =>
    (if p.1 = vid then (p.1, { p.2 with voted := true }) else p) :: markVoted rest vid

/-- `VotingSystem.cast_vote`: the four rejection checks in source order, then
the successful admission (insert into `pending_votes`, append to the
blockchain pool, set the `voted` flag). -/
def cast_vote (s : Sys) (vid token cand : String) (t : Nat) : String × Sys :=
  match dlookup s.voters vid with
  | none => ("Voter not registered", s)
  | some r =>
    if ¬ verify_token s vid token then ("Invalid token", s)
    else if ¬ candidates.contains cand then ("Invalid candidate", s)
    else if r.voted || has_voter_voted s.blockchain.chain vid
            || (dlookup s.pending_votes vid).isSome then
      ("Voter has already cast a vote", s)
    else
      let tx := Tx.vote vid cand t
      ("Vote cast successfully! It will be added to blockchain when mined.",
        { blockchain := (BC.add_transaction s.blockchain tx).2,
          voters := markVoted s.voters vid,
          pending_votes := s.pending_votes ++ [(vid, tx)] })

/-- `VotingSystem.mine_votes`: mine the blockchain pool and clear
`pending_votes` exactly when mining reported success. -/
def mine_votes (hf : HashFn) (s : Sys) (t fuel : Nat) : Option (String × Sys) :=
  (BC.mine_pending_transactions hf s.blockchain t fuel).map
    (fun r =>
      if r.1 then ("Votes mined successfully!", { s with blockchain := r.2, pending_votes := [] })
      else ("No votes to mine", { s with blockchain := r.2 }))

/-- `VotingSystem.get_results`: `self.blockchain.get_vote_counts()`. -/
def get_results (s : Sys) : String → Nat := get_vote_counts s.blockchain.chain

/-- The operations the reachability claims quantify over. -/
inductive Op where
  | register (vid : String) (t : Nat)
  | castVote (vid token cand : String) (t : Nat)
  | mine (t fuel : Nat)

/-- One operation applied to a state (a register call whose exception is
caught by the caller leaves the state unchanged). -/
def step (hf : HashFn) (tg : TokenGen) (s : Sys) : Op → Option Sys
  | .register vid t => some (register_voter tg s vid t).2
  | .castVote vid token cand t => some (cast_vote s vid token cand t).2
  | .mine t fuel => (mine_votes hf s t fuel).map Prod.snd

/-- A sequence of operations applied to a state. -/
def run (hf : HashFn) (tg : TokenGen) (s : Sys) : List Op → Option Sys
  | [] => some s
  | op :: ops =>
    match step hf tg s op with
    | none => none
    | some s' => run hf tg s' ops

/-- States reachable from a fresh `VotingSystem` by register / cast_vote /
mine_votes calls. -/
def Reachable (hf : HashFn) (tg : TokenGen) (s : Sys) : Prop :=
  ∃ t fuel ops, ((init hf t fuel).bind (fun s0 => run hf tg s0 ops)) = some s

end VS

namespace App

/-- The `Blockchain` class of `app.py`: additionally owns the
`voted_voters` set. -/
structure Blockchain where
  chain : List Block
  difficulty : Nat
  pending_transactions : List Tx
  voted_voters : List String
deriving DecidableEq, Repr

/-- `Blockchain.__init__` followed by `create_genesis_block`:
`Block(0, [{"message": "Genesis Block"}], time.time(), "0")` mined at
difficulty 2 and appended to the empty chain. -/
def initChain (hf : HashFn) (t fuel : Nat) : Option Blockchain :=
  (mine_block hf 2 fuel (mkBlock hf 0 [Tx.genesisMsg] t "0")).map
    (fun g => { chain := [g], difficulty := 2, pending_transactions := [], voted_voters := [] })

/-- `Blockchain.add_vote`: reject when `voter_id in voted_voters`, else append
the vote dict to the pool and add the voter to the set. -/
def add_vote (ch : Blockchain) (vid cand : String) (t : Nat) :
    (Bool × String) × Blockchain :=
  if ch.voted_voters.contains vid then ((false, "This voter has already voted"), ch)
  else
    ((true, "Vote added successfully"),
      { ch with pending_transactions := ch.pending_transactions ++ [Tx.vote vid cand t],
                voted_voters := ch.voted_voters ++ [vid] })

/-- The success message of `mine_pending_transactions` (app.py):
`f"Mined {mined_count} votes into block #{new_block.index}"`. -/
def minedMsg (n i : Nat) : String :=
  "Mined " ++ toString n ++ " votes into block #" ++ toString i

/-- `Blockchain.mine_pending_transactions` (app.py): `(False, "No votes to
mine")` and no change on an empty pool; otherwise build, mine and append the
new block, clear the pool and return `(True, minedMsg ...)`. -/
def mine_pending_transactions (hf : HashFn) (ch : Blockchain) (t fuel : Nat) :
    Option ((Bool × String) × Blockchain) :=
  if ch.pending_transactions.isEmpty then some ((false, "No votes to mine"), ch)
  else
    match ch.chain.getLast? with
    | none => none
    | some last =>
      (mine_block hf ch.difficulty fuel
          (mkBlock hf ch.chain.length ch.pending_transactions t last.hash)).map
        (fun b =>
          ((true, minedMsg ch.pending_transactions.length b.index),
            { ch with chain := ch.chain ++ [b], pending_transactions := [] }))

/-- `Blockchain.get_results` (app.py): counts over every transaction of every
block of `chain[1:]`, then over the pending pool. -/
def get_results (ch : Blockchain) : String → Nat :=
  (chainTxs (ch.chain.drop 1) ++ ch.pending_transactions).foldl countTx (fun _ => 0)

/-- The `VotingSystem` class of `app.py`: `registered_voters` maps
voter_id → token. -/
structure Sys where
  blockchain : Blockchain
  registered_voters : List (String × String)
deriving DecidableEq, Repr

/-- `self.candidates = ["Alice", "Bob", "Charlie", "Diana", "Edward"]`. -/
def candidates : List String := ["Alice", "Bob", "Charlie", "Diana", "Edward"]

/-- `VotingSystem.__init__` (app.py). -/
def init (hf : HashFn) (t fuel : Nat) : Option Sys :=
  (initChain hf t fuel).map (fun ch => { blockchain := ch, registered_voters := [] })

/-- `VotingSystem.register_voter` (app.py): a structured
`(False, "Voter already registered", None)` on a duplicate id, else store the
token and return `(True, "Registration successful", token)`. -/
def register_voter (tg : TokenGen) (s : Sys) (vid : String) (t : Nat) :
    (Bool × String × Option String) × Sys :=
  match dlookup s.registered_voters vid with
  | some _ => ((false, "Voter already registered", none), s)
  | none =>
    let token := tg vid t
    ((true, "Registration successful", some token),
      { s with registered_voters := s.registered_voters ++ [(vid, token)] })

/-- `VotingSystem.verify_voter` (app.py). -/
def verify_voter (s : Sys) (vid token : String) : Bool × String :=
  match dlookup s.registered_voters vid with
  | none => (false, "Voter not registered")
  | some tok => if tok ≠ token then (false, "Invalid token") else (true, "Verification successful")

/-- The rejection message of `cast_vote` (app.py) for an unknown candidate. -/
def invalidCandidateMsg : String :=
  "Invalid candidate. Choose from: Alice, Bob, Charlie, Diana, Edward"

/-- `VotingSystem.cast_vote` (app.py): verify the voter, check the candidate,
then delegate to `Blockchain.add_vote`. -/
def cast_vote (s : Sys) (vid token cand : String) (t : Nat) : (Bool × String) × Sys :=
  let v := verify_voter s vid token
  if ¬ v.1 then ((false, v.2), s)
  else if ¬ candidates.contains cand then ((false, invalidCandidateMsg), s)
  else
    let r := add_vote s.blockchain vid cand t
    (r.1, { s with blockchain := r.2 })

/-- `VotingSystem.mine_votes` (app.py): delegates to the blockchain. -/
def mine_votes (hf : HashFn) (s : Sys) (t fuel : Nat) : Option ((Bool × String) × Sys) :=
  (mine_pending_transactions hf s.blockchain t fuel).map
    (fun r => (r.1, { s with blockchain := r.2 }))

/-- The operations the reachability claims quantify over. -/
inductive Op where
  | register (vid : String) (t : Nat)
  | castVote (vid token cand : String) (t : Nat)
  | mine (t fuel : Nat)

/-- One operation applied to a state. -/
def step (hf : HashFn) (tg : TokenGen) (s : Sys) : Op → Option Sys
  | .register vid t => some (register_voter tg s vid t).2
  | .castVote vid token cand t => some (cast_vote s vid token cand t).2
  | .mine t fuel => (mine_votes hf s t fuel).map Prod.snd

/-- A sequence of operations applied to a state. -/
def run (hf : HashFn) (tg : TokenGen) (s : Sys) : List Op → Option Sys
  | [] => some s
  | op :: ops =>
    match step hf tg s op with
    | none => none
    | some s' => run hf tg s' ops

/-- States reachable from a fresh `VotingSystem` (app.py). -/
def Reachable (hf : HashFn) (tg : TokenGen) (s : Sys) : Prop :=
  ∃ t fuel ops, ((init hf t fuel).bind (fun s0 => run hf tg s0 ops)) = some s

end App

/-! Supporting lemmas. -/

theorem mine_block_spec (hf : HashFn) (d : Nat) :
    ∀ (fuel : Nat) (b b' : Block), mine_block hf d fuel b = some b' →
      b'.index = b.index ∧ b'.transactions = b.transactions ∧ b'.timestamp = b.timestamp ∧
      b'.previous_hash = b.previous_hash ∧ meets_difficulty d b'.hash = true ∧
      (b.hash = calculate_hash hf b → b'.hash = calculate_hash hf b') := by
  intro fuel
  induction fuel with
  | zero =>
    intro b b' h
    rw [mine_block] at h
    by_cases hm : meets_difficulty d b.hash
    · simp only [hm, if_true, Option.some.injEq] at h
      subst h
      exact ⟨rfl, rfl, rfl, rfl, hm, fun hh => hh⟩
    · simp [hm] at h
  | succ n ih =>
    intro b b' h
    rw [mine_block] at h
    by_cases hm : meets_difficulty d b.hash
    · simp only [hm, if_true, Option.some.injEq] at h
      subst h
      exact ⟨rfl, rfl, rfl, rfl, hm, fun hh => hh⟩
    · simp only [hm, if_false] at h
      obtain ⟨h1, h2, h3, h4, h5, h6⟩ := ih _ _ h
      exact ⟨h1, h2, h3, h4, h5, fun _ => h6 rfl⟩

theorem mkBlock_hash (hf : HashFn) (i : Nat) (txs : List Tx) (ts : Nat) (prev : String) :
    (mkBlock hf i txs ts prev).hash = calculate_hash hf (mkBlock hf i txs ts prev) := rfl

theorem countBy_append (v : String) (l1 l2 : List Tx) :
    countBy v (l1 ++ l2) = countBy v l1 + countBy v l2 := by
  simp [countBy, List.filter_append]

theorem countFor_append (c : String) (l1 l2 : List Tx) :
    countFor c (l1 ++ l2) = countFor c l1 + countFor c l2 := by
  simp [countFor, List.filter_append]

theorem countBy_eq_zero_iff (v : String) (txs : List Tx) :
    countBy v txs = 0 ↔ ∀ tx ∈ txs, isVoteBy v tx = false := by
  simp [countBy, List.length_eq_zero, List.filter_eq_nil_iff]

theorem countBy_single_vote (v vid cand : String) (t : Nat) :
    countBy v [Tx.vote vid cand t] = if vid = v then 1 else 0 := by
  by_cases h : vid = v <;> simp [countBy, List.filter_cons, isVoteBy, h]

theorem chainTxs_append (c1 c2 : List Block) :
    chainTxs (c1 ++ c2) = chainTxs c1 ++ chainTxs c2 := by
  simp [chainTxs]

theorem chainTxs_cons (b : Block) (c : List Block) :
    chainTxs (b :: c) = b.transactions ++ chainTxs c := by
  simp [chainTxs]

theorem chainTxs_singleton (b : Block) : chainTxs [b] = b.transactions := by
  simp [chainTxs]

theorem foldl_countTx (txs : List Tx) (m : String → Nat) (c : String) :
    (txs.foldl countTx m) c = m c + countFor c txs := by
  induction txs generalizing m with
  | nil => simp [countFor]
  | cons tx rest ih =>
    rw [List.foldl_cons, ih]
    cases tx with
    | vote vid cand ts =>
      have hcons : countFor c (Tx.vote vid cand ts :: rest)
          = (if cand = c then 1 else 0) + countFor c rest := by
        by_cases h : cand = c
        · simp [countFor, List.filter_cons, isVoteFor, h]
          omega
        · simp [countFor, List.filter_cons, isVoteFor, h]
      rw [hcons]
      by_cases h : c = cand
      · subst h
        simp [countTx]
        omega
      · have h2 : ¬ cand = c := fun hh => h hh.symm
        simp [countTx, h, h2]
    | genesisStr => simp [countTx, countFor, isVoteFor, List.filter_cons]
    | genesisMsg => simp [countTx, countFor, isVoteFor, List.filter_cons]

theorem foldl_addVoterVote_eq_none (txs : List Tx) (m : String → Option String) (v : String) :
    (txs.foldl addVoterVote m) v = none ↔
      m v = none ∧ ∀ tx ∈ txs, isVoteBy v tx = false := by
  induction txs generalizing m with
  | nil => simp
  | cons tx rest ih =>
    rw [List.foldl_cons, ih]
    cases tx with
    | vote vid cand ts =>
      by_cases h : v = vid
      · subst h
        simp [addVoterVote, isVoteBy, List.forall_mem_cons]
      · have h2 : ¬ vid = v := fun hh => h hh.symm
        simp [addVoterVote, isVoteBy, List.forall_mem_cons, h, h2]
    | genesisStr => simp [addVoterVote, isVoteBy, List.forall_mem_cons]
    | genesisMsg => simp [addVoterVote, isVoteBy, List.forall_mem_cons]

theorem has_voter_voted_eq_false_iff (c : List Block) (v : String) :
    has_voter_voted c v = false ↔ ∀ tx ∈ chainTxs c, isVoteBy v tx = false := by
  have hnone : has_voter_voted c v = false ↔ get_voter_votes c v = none := by
    unfold has_voter_voted
    cases get_voter_votes c v <;> simp
  rw [hnone]
  unfold get_voter_votes
  rw [foldl_addVoterVote_eq_none]
  simp

theorem has_voter_voted_eq_true_iff (c : List Block) (v : String) :
    has_voter_voted c v = true ↔ ∃ tx ∈ chainTxs c, isVoteBy v tx = true := by
  rw [← Bool.not_eq_false, has_voter_voted_eq_false_iff]
  push_neg
  constructor
  · rintro ⟨tx, htx, hne⟩
    exact ⟨tx, htx, by simpa using hne⟩
  · rintro ⟨tx, htx, heq⟩
    exact ⟨tx, htx, by simp [heq]⟩

theorem dlookup_append {α : Type} (l1 l2 : List (String × α)) (k : String) :
    dlookup (l1 ++ l2) k = match dlookup l1 k with
      | some v => some v
      | none => dlookup l2 k := by
  induction l1 with
  | nil => simp [dlookup]
  | cons p rest ih =>
    by_cases h : p.1 = k <;> simp [dlookup, h, ih]

theorem dlookup_append_single_self {α : Type} (l : List (String × α)) (k : String) (v : α)
    (h : dlookup l k = none) : dlookup (l ++ [(k, v)]) k = some v := by
  rw [dlookup_append, h]
  simp [dlookup]

theorem dlookup_append_single_ne {α : Type} (l : List (String × α)) (k k' : String) (v : α)
    (h : k ≠ k') : dlookup (l ++ [(k, v)]) k' = dlookup l k' := by
  rw [dlookup_append]
  cases hl : dlookup l k' with
  | some w => rfl
  | none => simp [dlookup, h]

theorem dlookup_markVoted (l : List (String × VS.VoterRec)) (vid k : String) :
    dlookup (VS.markVoted l vid) k =
      if k = vid then (dlookup l k).map (fun r => { r with voted := true })
      else dlookup l k := by
  induction l with
  | nil => simp [VS.markVoted, dlookup]
  | cons p rest ih =>
    by_cases hp : p.1 = vid
    · by_cases hk : p.1 = k
      · have hkv : k = vid := by rw [← hk]; exact hp
        simp [VS.markVoted, dlookup, hp, hk, hkv]
      · have hvk : ¬ vid = k := fun hh => hk (hp.trans hh)
        simp [VS.markVoted, dlookup, hp, hk, hvk, ih]
    · by_cases hk : p.1 = k
      · have hkv : ¬ k = vid := fun hh => hp (hk.trans hh)
        simp [VS.markVoted, dlookup, hp, hk, hkv]
      · simp [VS.markVoted, dlookup, hp, hk, ih]

/-! Chain-validation lemmas. -/

theorem validate_from_eq_valid_iff (hf : HashFn) :
    ∀ (rest : List Block) (prev : Block) (k : Nat),
      validate_from hf prev rest k = .valid ↔
        ∀ (j : Nat) (b p : Block), rest[j]? = some b → (prev :: rest)[j]? = some p →
          b.hash = calculate_hash hf b ∧ b.previous_hash = p.hash := by
  intro rest
  induction rest with
  | nil =>
    intro prev k
    constructor
    · intro _ j b p hb _
      simp at hb
    · intro _
      rfl
  | cons cur rest' ih =>
    intro prev k
    by_cases h1 : cur.hash = calculate_hash hf cur
    · by_cases h2 : cur.previous_hash = prev.hash
      · have hstep : validate_from hf prev (cur :: rest') k = validate_from hf cur rest' (k + 1) := by
          simp [validate_from, h1, h2]
        rw [hstep, ih cur (k + 1)]
        constructor
        · intro h j b p hb hp
          match j with
          | 0 =>
            rw [List.getElem?_cons_zero] at hb hp
            cases hb
            cases hp
            exact ⟨h1, h2⟩
          | j' + 1 =>
            rw [List.getElem?_cons_succ] at hb hp
            exact h j' b p hb hp
        · intro h j b p hb hp
          exact h (j + 1) b p (by simpa using hb) (by simpa using hp)
      · have hstep : validate_from hf prev (cur :: rest') k = .linkMismatch k := by
          simp [validate_from, h1, h2]
        rw [hstep]
        constructor
        · intro hcontra
          cases hcontra
        · intro hall
          exact absurd (hall 0 cur prev (by simp) (by simp)).2 h2
    · have hstep : validate_from hf prev (cur :: rest') k = .hashMismatch k := by
        simp [validate_from, h1]
      rw [hstep]
      constructor
      · intro hcontra
        cases hcontra
      · intro hall
        exact absurd (hall 0 cur prev (by simp) (by simp)).1 h1

theorem validate_from_first_failure (hf : HashFn) :
    ∀ (rest : List Block) (prev : Block) (k j : Nat) (b p : Block),
      rest[j]? = some b → (prev :: rest)[j]? = some p →
      (∀ (j' : Nat) (b' p' : Block), j' < j → rest[j']? = some b' → (prev :: rest)[j']? = some p' →
        b'.hash = calculate_hash hf b' ∧ b'.previous_hash = p'.hash) →
      ¬ (b.hash = calculate_hash hf b ∧ b.previous_hash = p.hash) →
      validate_from hf prev rest k =
        (if b.hash = calculate_hash hf b then .linkMismatch (k + j) else .hashMismatch (k + j)) := by
  intro rest
  induction rest with
  | nil =>
    intro prev k j b p hb
    simp at hb
  | cons cur rest' ih =>
    intro prev k j b p hb hp hgood hbad
    match j with
    | 0 =>
      rw [List.getElem?_cons_zero] at hb hp
      cases hb
      cases hp
      by_cases h1 : cur.hash = calculate_hash hf cur
      · have h2 : ¬ cur.previous_hash = prev.hash := fun hh => hbad ⟨h1, hh⟩
        simp [validate_from, h1, h2]
      · simp [validate_from, h1]
    | j' + 1 =>
      rw [List.getElem?_cons_succ] at hb hp
      obtain ⟨hh1, hh2⟩ := hgood 0 cur prev (Nat.succ_pos _) (by simp) (by simp)
      have hstep : validate_from hf prev (cur :: rest') k = validate_from hf cur rest' (k + 1) := by
        simp [validate_from, hh1, hh2]
      have hgood' : ∀ (j'' : Nat) (b' p' : Block), j'' < j' → rest'[j'']? = some b' → (cur :: rest')[j'']? = some p' →
          b'.hash = calculate_hash hf b' ∧ b'.previous_hash = p'.hash := by
        intro j'' b' p' hlt hb' hp'
        exact hgood (j'' + 1) b' p' (by omega) (by simpa using hb') (by simpa using hp')
      rw [hstep, ih cur (k + 1) j' b p hb hp hgood' hbad]
      have harith : k + 1 + j' = k + (j' + 1) := by omega
      rw [harith]

theorem validate_chain_eq_valid_iff (hf : HashFn) (cl : List Block) :
    validate_chain hf cl = .valid ↔
      ∀ (i : Nat) (b p : Block), 1 ≤ i → cl[i]? = some b → cl[i-1]? = some p →
        b.hash = calculate_hash hf b ∧ b.previous_hash = p.hash := by
  cases cl with
  | nil =>
    constructor
    · intro _ i b p _ hb _
      simp at hb
    · intro _
      rfl
  | cons b0 rest =>
    rw [show validate_chain hf (b0 :: rest) = validate_from hf b0 rest 1 from rfl]
    rw [validate_from_eq_valid_iff]
    constructor
    · intro h i b p h1 hb hp
      obtain ⟨j, rfl⟩ : ∃ j, i = j + 1 := ⟨i - 1, by omega⟩
      rw [List.getElem?_cons_succ] at hb
      have hp' : (b0 :: rest)[j]? = some p := by simpa using hp
      exact h j b p hb hp'
    · intro h j b p hb hp
      refine h (j + 1) b p (by omega) (by simpa using hb) ?_
      simpa using hp

theorem validate_chain_first_failure (hf : HashFn) (cl : List Block) (i : Nat) (b p : Block)
    (h1 : 1 ≤ i) (hb : cl[i]? = some b) (hp : cl[i-1]? = some p)
    (hgood : ∀ (j : Nat) (b' p' : Block), 1 ≤ j → j < i → cl[j]? = some b' → cl[j-1]? = some p' →
      b'.hash = calculate_hash hf b' ∧ b'.previous_hash = p'.hash)
    (hbad : ¬ (b.hash = calculate_hash hf b ∧ b.previous_hash = p.hash)) :
    validate_chain hf cl =
      (if b.hash = calculate_hash hf b then .linkMismatch i else .hashMismatch i) := by
  cases cl with
  | nil => simp at hb
  | cons b0 rest =>
    obtain ⟨j, rfl⟩ : ∃ j, i = j + 1 := ⟨i - 1, by omega⟩
    rw [List.getElem?_cons_succ] at hb
    have hp' : (b0 :: rest)[j]? = some p := by simpa using hp
    have hgood' : ∀ (j' : Nat) (b' p' : Block), j' < j → rest[j']? = some b' → (b0 :: rest)[j']? = some p' →
        b'.hash = calculate_hash hf b' ∧ b'.previous_hash = p'.hash := by
      intro j' b' p' hlt hb' hp'
      refine hgood (j' + 1) b' p' (by omega) (by omega) (by simpa using hb') ?_
      simpa using hp'
    rw [show validate_chain hf (b0 :: rest) = validate_from hf b0 rest 1 from rfl]
    rw [validate_from_first_failure hf rest b0 1 j b p hb hp' hgood' hbad]
    have harith : 1 + j = j + 1 := by omega
    rw [harith]

theorem is_chain_valid_iff_validate (hf : HashFn) (cl : List Block) :
    is_chain_valid hf cl = true ↔ validate_chain hf cl = .valid := by
  unfold is_chain_valid
  cases validate_chain hf cl <;> simp

/-! The inductive invariant of the `voting_system.py` state machine. -/

namespace VS

/-- Inductive invariant: every voter has at most one record across the pending
pool and the mined blocks; `pending_votes` and the pool list the same voters
with the same records; the chain starts with the genesis block. -/
def Inv (s : Sys) : Prop :=
  (∀ v, countBy v (s.blockchain.pending_transactions ++ chainTxs s.blockchain.chain) ≤ 1) ∧
  (∀ v tx, dlookup s.pending_votes v = some tx →
      tx ∈ s.blockchain.pending_transactions ∧ isVoteBy v tx = true) ∧
  (∀ v tx, tx ∈ s.blockchain.pending_transactions → isVoteBy v tx = true →
      (dlookup s.pending_votes v).isSome = true) ∧
  (∃ g rest, s.blockchain.chain = g :: rest ∧ g.transactions = [Tx.genesisStr])

theorem Inv_init (hf : HashFn) (t fuel : Nat) (s : Sys)
    (h : init hf t fuel = some s) : Inv s := by
  unfold init BC.init at h
  cases hm : mine_block hf 2 fuel (mkBlock hf 0 [Tx.genesisStr] t "0") with
  | none => rw [hm] at h; simp at h
  | some g =>
    rw [hm] at h
    simp only [Option.map_some', Option.map_map, Option.some.injEq] at h
    obtain ⟨_, hg2, _, _, _, _⟩ := mine_block_spec hf 2 fuel _ g hm
    have hgt : g.transactions = [Tx.genesisStr] := hg2
    subst h
    refine ⟨?_, ?_, ?_, g, [], rfl, hgt⟩
    · intro v
      simp [countBy, chainTxs, hgt, List.filter_cons, isVoteBy]
    · intro v tx hv
      simp [dlookup] at hv
    · intro v tx hv
      simp at hv

theorem Inv_register (tg : TokenGen) (s : Sys) (vid : String) (t : Nat)
    (h : Inv s) : Inv (register_voter tg s vid t).2 := by
  unfold register_voter
  cases dlookup s.voters vid <;> exact h

/-- The text returned by a successful `cast_vote`. -/
def acceptMsg : String := "Vote cast successfully! It will be added to blockchain when mined."

theorem cast_vote_not_registered (s : Sys) (vid token cand : String) (t : Nat)
    (hv : dlookup s.voters vid = none) :
    cast_vote s vid token cand t = ("Voter not registered", s) := by
  simp [cast_vote, hv]

theorem cast_vote_bad_token (s : Sys) (vid token cand : String) (t : Nat) (r : VoterRec)
    (hv : dlookup s.voters vid = some r) (h1 : verify_token s vid token = false) :
    cast_vote s vid token cand t = ("Invalid token", s) := by
  simp [cast_vote, hv, h1]

theorem cast_vote_bad_candidate (s : Sys) (vid token cand : String) (t : Nat) (r : VoterRec)
    (hv : dlookup s.voters vid = some r) (h1 : verify_token s vid token = true)
    (h2 : candidates.contains cand = false) :
    cast_vote s vid token cand t = ("Invalid candidate", s) := by
  have h2' : cand ∉ candidates := by simpa using h2
  simp [cast_vote, hv, h1, h2']

theorem cast_vote_already (s : Sys) (vid token cand : String) (t : Nat) (r : VoterRec)
    (hv : dlookup s.voters vid = some r) (h1 : verify_token s vid token = true)
    (h2 : candidates.contains cand = true)
    (h3 : (r.voted || has_voter_voted s.blockchain.chain vid
        || (dlookup s.pending_votes vid).isSome) = true) :
    cast_vote s vid token cand t = ("Voter has already cast a vote", s) := by
  have h2' : cand ∈ candidates := by simpa using h2
  simp [cast_vote, hv, h1, h2', h3]

theorem cast_vote_success (s : Sys) (vid token cand : String) (t : Nat) (r : VoterRec)
    (hv : dlookup s.voters vid = some r) (h1 : verify_token s vid token = true)
    (h2 : candidates.contains cand = true)
    (h3 : (r.voted || has_voter_voted s.blockchain.chain vid
        || (dlookup s.pending_votes vid).isSome) = false) :
    cast_vote s vid token cand t =
      (acceptMsg,
        { blockchain := { s.blockchain with pending_transactions :=
            s.blockchain.pending_transactions ++ [Tx.vote vid cand t] },
          voters := markVoted s.voters vid,
          pending_votes := s.pending_votes ++ [(vid, Tx.vote vid cand t)] }) := by
  have h2' : cand ∈ candidates := by simpa using h2
  simp [cast_vote, hv, h1, h2', h3, BC.add_transaction, acceptMsg]

theorem Inv_cast (s : Sys) (vid token cand : String) (t : Nat)
    (h : Inv s) : Inv (cast_vote s vid token cand t).2 := by
  cases hv : dlookup s.voters vid with
  | none => rw [cast_vote_not_registered s vid token cand t hv]; exact h
  | some r =>
    cases hb1 : verify_token s vid token with
    | false => rw [cast_vote_bad_token s vid token cand t r hv hb1]; exact h
    | true =>
      cases hb2 : candidates.contains cand with
      | false => rw [cast_vote_bad_candidate s vid token cand t r hv hb1 hb2]; exact h
      | true =>
        cases hb3 : (r.voted || has_voter_voted s.blockchain.chain vid
            || (dlookup s.pending_votes vid).isSome) with
        | true => rw [cast_vote_already s vid token cand t r hv hb1 hb2 hb3]; exact h
        | false =>
          have hflags := hb3
          simp only [Bool.or_eq_false_iff] at hflags
          obtain ⟨⟨hvoted, hchain'⟩, hpend'⟩ := hflags
          rw [cast_vote_success s vid token cand t r hv hb1 hb2 hb3]
          obtain ⟨hc, hpv, hpv2, hgen⟩ := h
          refine ⟨?_, ?_, ?_, ?_⟩
          · intro v
            have hsplit : countBy v ((s.blockchain.pending_transactions
                ++ [Tx.vote vid cand t]) ++ chainTxs s.blockchain.chain)
                = countBy v s.blockchain.pending_transactions
                  + countBy v [Tx.vote vid cand t]
                  + countBy v (chainTxs s.blockchain.chain) := by
              rw [countBy_append, countBy_append]
            by_cases hvv : vid = v
            · subst hvv
              have hchain0 : countBy vid (chainTxs s.blockchain.chain) = 0 :=
                (countBy_eq_zero_iff _ _).mpr
                  ((has_voter_voted_eq_false_iff s.blockchain.chain vid).mp hchain')
              have hpool0 : countBy vid s.blockchain.pending_transactions = 0 := by
                refine (countBy_eq_zero_iff _ _).mpr (fun tx htx => ?_)
                by_contra hcon
                have : (dlookup s.pending_votes vid).isSome = true :=
                  hpv2 vid tx htx (by simpa using hcon)
                rw [hpend'] at this
                cases this
              rw [hsplit, hchain0, hpool0, countBy_single_vote]
              simp
            · rw [hsplit, countBy_single_vote]
              have := hc v
              rw [countBy_append] at this
              simp [hvv]
              omega
          · intro v tx htx
            rw [dlookup_append] at htx
            cases hold : dlookup s.pending_votes v with
            | some w =>
              rw [hold] at htx
              obtain ⟨hmem, hvb⟩ := hpv v w hold
              cases htx
              exact ⟨List.mem_append_left _ hmem, hvb⟩
            | none =>
              rw [hold] at htx
              by_cases hvv : vid = v
              · subst hvv
                simp [dlookup] at htx
                subst htx
                exact ⟨List.mem_append_right _ (List.mem_singleton.mpr rfl), by simp [isVoteBy]⟩
              · simp [dlookup, hvv] at htx
          · intro v tx htx hvb
            rw [dlookup_append]
            rcases List.mem_append.mp htx with hmem | hmem
            · have := hpv2 v tx hmem hvb
              cases hold : dlookup s.pending_votes v with
              | some w => simp
              | none => rw [hold] at this; cases this
            · have htx' : tx = Tx.vote vid cand t := List.mem_singleton.mp hmem
              subst htx'
              have hvv : vid = v := by simpa [isVoteBy] using hvb
              subst hvv
              cases hold : dlookup s.pending_votes vid with
              | some w => simp
              | none => simp [dlookup]
          · exact hgen

theorem mine_votes_empty (hf : HashFn) (s : Sys) (t fuel : Nat)
    (hp : s.blockchain.pending_transactions.isEmpty = true) :
    mine_votes hf s t fuel = some ("No votes to mine", s) := by
  simp [mine_votes, BC.mine_pending_transactions, hp]

theorem mine_votes_no_tail (hf : HashFn) (s : Sys) (t fuel : Nat)
    (hp : s.blockchain.pending_transactions.isEmpty = false)
    (hlast : s.blockchain.chain.getLast? = none) :
    mine_votes hf s t fuel = none := by
  simp [mine_votes, BC.mine_pending_transactions, hp, hlast]

theorem mine_votes_no_fuel (hf : HashFn) (s : Sys) (t fuel : Nat) (last : Block)
    (hp : s.blockchain.pending_transactions.isEmpty = false)
    (hlast : s.blockchain.chain.getLast? = some last)
    (hmb : mine_block hf s.blockchain.difficulty fuel
      (mkBlock hf s.blockchain.chain.length s.blockchain.pending_transactions t last.hash)
      = none) :
    mine_votes hf s t fuel = none := by
  simp [mine_votes, BC.mine_pending_transactions, hp, hlast, hmb]

theorem mine_votes_success (hf : HashFn) (s : Sys) (t fuel : Nat) (last b : Block)
    (hp : s.blockchain.pending_transactions.isEmpty = false)
    (hlast : s.blockchain.chain.getLast? = some last)
    (hmb : mine_block hf s.blockchain.difficulty fuel
      (mkBlock hf s.blockchain.chain.length s.blockchain.pending_transactions t last.hash)
      = some b) :
    mine_votes hf s t fuel = some ("Votes mined successfully!",
      { blockchain := { s.blockchain with
                        chain := s.blockchain.chain ++ [b],
                        pending_transactions := [] },
        voters := s.voters,
        pending_votes := [] }) := by
  simp [mine_votes, BC.mine_pending_transactions, hp, hlast, hmb]

theorem Inv_mine (hf : HashFn) (s : Sys) (t fuel : Nat) (out : String × Sys)
    (h : Inv s) (hm : mine_votes hf s t fuel = some out) : Inv out.2 := by
  cases hp : s.blockchain.pending_transactions.isEmpty with
  | true =>
    rw [mine_votes_empty hf s t fuel hp] at hm
    cases hm
    exact h
  | false =>
    obtain ⟨hc, hpv, hpv2, g, rest, hchain, hgt⟩ := h
    cases hlast : s.blockchain.chain.getLast? with
    | none =>
      rw [mine_votes_no_tail hf s t fuel hp hlast] at hm
      cases hm
    | some last =>
      cases hmb : mine_block hf s.blockchain.difficulty fuel
          (mkBlock hf s.blockchain.chain.length s.blockchain.pending_transactions t last.hash) with
      | none =>
        rw [mine_votes_no_fuel hf s t fuel last hp hlast hmb] at hm
        cases hm
      | some b =>
        rw [mine_votes_success hf s t fuel last b hp hlast hmb] at hm
        cases hm
        obtain ⟨_, hb2, _, _, _, _⟩ := mine_block_spec hf _ fuel _ b hmb
        have hbt : b.transactions = s.blockchain.pending_transactions := hb2
        refine ⟨?_, ?_, ?_, ?_⟩
        · intro v
          have := hc v
          rw [countBy_append] at this
          simp only [List.nil_append, chainTxs_append, chainTxs_singleton, countBy_append, hbt]
          omega
        · intro v tx htx
          simp [dlookup] at htx
        · intro v tx htx
          simp at htx
        · exact ⟨g, rest ++ [b], by rw [hchain]; simp, hgt⟩

theorem step_preserves_Inv (hf : HashFn) (tg : TokenGen) (s s' : Sys) (op : Op)
    (h : Inv s) (hs : step hf tg s op = some s') : Inv s' := by
  cases op with
  | register vid t =>
    simp only [step, Option.some.injEq] at hs
    subst hs
    exact Inv_register tg s vid t h
  | castVote vid token cand t =>
    simp only [step, Option.some.injEq] at hs
    subst hs
    exact Inv_cast s vid token cand t h
  | mine t fuel =>
    simp only [step] at hs
    obtain ⟨out, hout, hsnd⟩ := Option.map_eq_some'.mp hs
    subst hsnd
    exact Inv_mine hf s t fuel out h hout

theorem run_preserves_Inv (hf : HashFn) (tg : TokenGen) :
    ∀ (ops : List Op) (s s' : Sys), Inv s → run hf tg s ops = some s' → Inv s' := by
  intro ops
  induction ops with
  | nil =>
    intro s s' h hr
    simp only [run, Option.some.injEq] at hr
    subst hr
    exact h
  | cons op rest ih =>
    intro s s' h hr
    unfold run at hr
    cases hstep : step hf tg s op with
    | none => rw [hstep] at hr; cases hr
    | some s1 =>
      rw [hstep] at hr
      exact ih s1 s' (step_preserves_Inv hf tg s s1 op h hstep) hr

theorem reachable_Inv (hf : HashFn) (tg : TokenGen) (s : Sys)
    (h : Reachable hf tg s) : Inv s := by
  obtain ⟨t, fuel, ops, hrun⟩ := h
  cases hinit : init hf t fuel with
  | none => rw [hinit] at hrun; cases hrun
  | some s0 =>
    rw [hinit] at hrun
    simp only [Option.some_bind] at hrun
    exact run_preserves_Inv hf tg ops s0 s (Inv_init hf t fuel s0 hinit) hrun

end VS

/-! The inductive invariant of the `app.py` state machine. -/

namespace App

/-- Inductive invariant: every voter has at most one record across the pending
pool and the mined blocks; every voter with a record is in `voted_voters`; the
chain starts with the genesis block. -/
def Inv (s : Sys) : Prop :=
  (∀ v, countBy v (s.blockchain.pending_transactions ++ chainTxs s.blockchain.chain) ≤ 1) ∧
  (∀ v tx, tx ∈ s.blockchain.pending_transactions ++ chainTxs s.blockchain.chain →
      isVoteBy v tx = true → v ∈ s.blockchain.voted_voters) ∧
  (∃ g rest, s.blockchain.chain = g :: rest ∧ g.transactions = [Tx.genesisMsg])

theorem Inv_initA (hf : HashFn) (t fuel : Nat) (s : Sys)
    (h : init hf t fuel = some s) : Inv s := by
  unfold init initChain at h
  cases hm : mine_block hf 2 fuel (mkBlock hf 0 [Tx.genesisMsg] t "0") with
  | none => rw [hm] at h; simp at h
  | some g =>
    rw [hm] at h
    simp only [Option.map_some', Option.map_map, Option.some.injEq] at h
    obtain ⟨_, hg2, _, _, _, _⟩ := mine_block_spec hf 2 fuel _ g hm
    have hgt : g.transactions = [Tx.genesisMsg] := hg2
    subst h
    refine ⟨?_, ?_, g, [], rfl, hgt⟩
    · intro v
      simp [countBy, chainTxs, hgt, List.filter_cons, isVoteBy]
    · intro v tx htx hvb
      simp [chainTxs, hgt] at htx
      subst htx
      simp [isVoteBy] at hvb

theorem Inv_registerA (tg : TokenGen) (s : Sys) (vid : String) (t : Nat)
    (h : Inv s) : Inv (register_voter tg s vid t).2 := by
  unfold register_voter
  cases dlookup s.registered_voters vid <;> exact h

theorem add_vote_already (ch : Blockchain) (vid cand : String) (t : Nat)
    (h : ch.voted_voters.contains vid = true) :
    add_vote ch vid cand t = ((false, "This voter has already voted"), ch) := by
  have h' : vid ∈ ch.voted_voters := by simpa using h
  simp [add_vote, h']

theorem add_vote_ok (ch : Blockchain) (vid cand : String) (t : Nat)
    (h : ch.voted_voters.contains vid = false) :
    add_vote ch vid cand t = ((true, "Vote added successfully"),
      { ch with pending_transactions := ch.pending_transactions ++ [Tx.vote vid cand t],
                voted_voters := ch.voted_voters ++ [vid] }) := by
  have h' : vid ∉ ch.voted_voters := by simpa using h
  simp [add_vote, h']

theorem cast_vote_fail_verify (s : Sys) (vid token cand : String) (t : Nat)
    (h : (verify_voter s vid token).1 = false) :
    cast_vote s vid token cand t = ((false, (verify_voter s vid token).2), s) := by
  simp [cast_vote, h]

theorem cast_vote_bad_candidateA (s : Sys) (vid token cand : String) (t : Nat)
    (h1 : (verify_voter s vid token).1 = true)
    (h2 : candidates.contains cand = false) :
    cast_vote s vid token cand t = ((false, invalidCandidateMsg), s) := by
  have h2' : cand ∉ candidates := by simpa using h2
  simp [cast_vote, h1, h2']

theorem cast_vote_to_add (s : Sys) (vid token cand : String) (t : Nat)
    (h1 : (verify_voter s vid token).1 = true)
    (h2 : candidates.contains cand = true) :
    cast_vote s vid token cand t =
      ((add_vote s.blockchain vid cand t).1,
        { s with blockchain := (add_vote s.blockchain vid cand t).2 }) := by
  have h2' : cand ∈ candidates := by simpa using h2
  simp [cast_vote, h1, h2']

theorem Inv_castA (s : Sys) (vid token cand : String) (t : Nat)
    (h : Inv s) : Inv (cast_vote s vid token cand t).2 := by
  cases hb1 : (verify_voter s vid token).1 with
  | false => rw [cast_vote_fail_verify s vid token cand t hb1]; exact h
  | true =>
    cases hb2 : candidates.contains cand with
    | false => rw [cast_vote_bad_candidateA s vid token cand t hb1 hb2]; exact h
    | true =>
      rw [cast_vote_to_add s vid token cand t hb1 hb2]
      cases hb3 : s.blockchain.voted_voters.contains vid with
      | true => rw [add_vote_already s.blockchain vid cand t hb3]; exact h
      | false =>
        rw [add_vote_ok s.blockchain vid cand t hb3]
        have hnv : vid ∉ s.blockchain.voted_voters := by simpa using hb3
        obtain ⟨hc, hmem, hgen⟩ := h
        refine ⟨?_, ?_, ?_⟩
        · intro v
          have hsplit : countBy v ((s.blockchain.pending_transactions
              ++ [Tx.vote vid cand t]) ++ chainTxs s.blockchain.chain)
              = countBy v s.blockchain.pending_transactions
                + countBy v [Tx.vote vid cand t]
                + countBy v (chainTxs s.blockchain.chain) := by
            rw [countBy_append, countBy_append]
          by_cases hvv : vid = v
          · subst hvv
            have hzero : countBy vid (s.blockchain.pending_transactions
                ++ chainTxs s.blockchain.chain) = 0 := by
              refine (countBy_eq_zero_iff _ _).mpr (fun tx htx => ?_)
              by_contra hcon
              exact hnv (hmem vid tx htx (by simpa using hcon))
            rw [countBy_append] at hzero
            rw [hsplit, countBy_single_vote]
            simp
            omega
          · rw [hsplit, countBy_single_vote]
            have := hc v
            rw [countBy_append] at this
            simp [hvv]
            omega
        · intro v tx htx hvb
          rcases List.mem_append.mp htx with hmem1 | hmem1
          · rcases List.mem_append.mp hmem1 with hmem2 | hmem2
            · exact List.mem_append_left _
                (hmem v tx (List.mem_append_left _ hmem2) hvb)
            · have htx' : tx = Tx.vote vid cand t := List.mem_singleton.mp hmem2
              subst htx'
              have hvv : vid = v := by simpa [isVoteBy] using hvb
              subst hvv
              exact List.mem_append_right _ (List.mem_singleton.mpr rfl)
          · exact List.mem_append_left _
              (hmem v tx (List.mem_append_right _ hmem1) hvb)
        · exact hgen

theorem mine_empty (hf : HashFn) (s : Sys) (t fuel : Nat)
    (hp : s.blockchain.pending_transactions.isEmpty = true) :
    mine_votes hf s t fuel = some ((false, "No votes to mine"), s) := by
  simp [mine_votes, mine_pending_transactions, hp]

theorem mine_no_tail (hf : HashFn) (s : Sys) (t fuel : Nat)
    (hp : s.blockchain.pending_transactions.isEmpty = false)
    (hlast : s.blockchain.chain.getLast? = none) :
    mine_votes hf s t fuel = none := by
  simp [mine_votes, mine_pending_transactions, hp, hlast]

theorem mine_no_fuel (hf : HashFn) (s : Sys) (t fuel : Nat) (last : Block)
    (hp : s.blockchain.pending_transactions.isEmpty = false)
    (hlast : s.blockchain.chain.getLast? = some last)
    (hmb : mine_block hf s.blockchain.difficulty fuel
      (mkBlock hf s.blockchain.chain.length s.blockchain.pending_transactions t last.hash)
      = none) :
    mine_votes hf s t fuel = none := by
  simp [mine_votes, mine_pending_transactions, hp, hlast, hmb]

theorem mine_success (hf : HashFn) (s : Sys) (t fuel : Nat) (last b : Block)
    (hp : s.blockchain.pending_transactions.isEmpty = false)
    (hlast : s.blockchain.chain.getLast? = some last)
    (hmb : mine_block hf s.blockchain.difficulty fuel
      (mkBlock hf s.blockchain.chain.length s.blockchain.pending_transactions t last.hash)
      = some b) :
    mine_votes hf s t fuel = some
      ((true, minedMsg s.blockchain.pending_transactions.length b.index),
        { s with blockchain := { s.blockchain with
                                 chain := s.blockchain.chain ++ [b],
                                 pending_transactions := [] } }) := by
  simp [mine_votes, mine_pending_transactions, hp, hlast, hmb]

theorem Inv_mineA (hf : HashFn) (s : Sys) (t fuel : Nat) (out : (Bool × String) × Sys)
    (h : Inv s) (hm : mine_votes hf s t fuel = some out) : Inv out.2 := by
  cases hp : s.blockchain.pending_transactions.isEmpty with
  | true =>
    rw [mine_empty hf s t fuel hp] at hm
    cases hm
    exact h
  | false =>
    obtain ⟨hc, hmem, g, rest, hchain, hgt⟩ := h
    cases hlast : s.blockchain.chain.getLast? with
    | none =>
      rw [mine_no_tail hf s t fuel hp hlast] at hm
      cases hm
    | some last =>
      cases hmb : mine_block hf s.blockchain.difficulty fuel
          (mkBlock hf s.blockchain.chain.length s.blockchain.pending_transactions t last.hash) with
      | none =>
        rw [mine_no_fuel hf s t fuel last hp hlast hmb] at hm
        cases hm
      | some b =>
        rw [mine_success hf s t fuel last b hp hlast hmb] at hm
        cases hm
        obtain ⟨_, hb2, _, _, _, _⟩ := mine_block_spec hf _ fuel _ b hmb
        have hbt : b.transactions = s.blockchain.pending_transactions := hb2
        refine ⟨?_, ?_, ?_⟩
        · intro v
          have := hc v
          rw [countBy_append] at this
          simp only [List.nil_append, chainTxs_append, chainTxs_singleton, countBy_append, hbt]
          omega
        · intro v tx htx hvb
          simp only [List.nil_append, chainTxs_append, chainTxs_singleton, hbt] at htx
          refine hmem v tx ?_ hvb
          rcases List.mem_append.mp htx with hmem1 | hmem1
          · exact List.mem_append_right _ hmem1
          · exact List.mem_append_left _ hmem1
        · exact ⟨g, rest ++ [b], by rw [hchain]; simp, hgt⟩

theorem step_preserves_InvA (hf : HashFn) (tg : TokenGen) (s s' : Sys) (op : Op)
    (h : Inv s) (hs : step hf tg s op = some s') : Inv s' := by
  cases op with
  | register vid t =>
    simp only [step, Option.some.injEq] at hs
    subst hs
    exact Inv_registerA tg s vid t h
  | castVote vid token cand t =>
    simp only [step, Option.some.injEq] at hs
    subst hs
    exact Inv_castA s vid token cand t h
  | mine t fuel =>
    simp only [step] at hs
    obtain ⟨out, hout, hsnd⟩ := Option.map_eq_some'.mp hs
    subst hsnd
    exact Inv_mineA hf s t fuel out h hout

theorem run_preserves_InvA (hf : HashFn) (tg : TokenGen) :
    ∀ (ops : List Op) (s s' : Sys), Inv s → run hf tg s ops = some s' → Inv s' := by
  intro ops
  induction ops with
  | nil =>
    intro s s' h hr
    simp only [run, Option.some.injEq] at hr
    subst hr
    exact h
  | cons op rest ih =>
    intro s s' h hr
    unfold run at hr
    cases hstep : step hf tg s op with
    | none => rw [hstep] at hr; cases hr
    | some s1 =>
      rw [hstep] at hr
      exact ih s1 s' (step_preserves_InvA hf tg s s1 op h hstep) hr

theorem reachable_InvA (hf : HashFn) (tg : TokenGen) (s : Sys)
    (h : Reachable hf tg s) : Inv s := by
  obtain ⟨t, fuel, ops, hrun⟩ := h
  cases hinit : init hf t fuel with
  | none => rw [hinit] at hrun; cases hrun
  | some s0 =>
    rw [hinit] at hrun
    simp only [Option.some_bind] at hrun
    exact run_preserves_InvA hf tg ops s0 s (Inv_initA hf t fuel s0 hinit) hrun

end App

/-! Concrete digest functions, token generator and states used by the
witnesses: `hfW` makes every nonce-0 block meet difficulty 2 at once, `hfW2`
needs two proof-of-work iterations, `hfV` distinguishes nonce 0 from other
nonces (used to exhibit a tampered chain). -/

def hfW : HashFn := fun _ _ _ _ n => if n = 0 then "00" else "ff"

def hfW2 : HashFn := fun _ _ _ _ n => if n = 2 then "00" else "ff"

def tgW : TokenGen := fun v _ => v ++ "-tok"

/-- The genesis block of `blockchain.py` as mined under `hfW` at time 1. -/
def gW : Block := ⟨0, [Tx.genesisStr], 1, "0", 0, "00"⟩

/-- The genesis block of `app.py` as mined under `hfW` at time 1. -/
def gA : Block := ⟨0, [Tx.genesisMsg], 1, "0", 0, "00"⟩

/-- The vote record cast by `"V1"` for `"Alice"` at time 2 in the witness runs. -/
def txW : Tx := Tx.vote "V1" "Alice" 2

/-- The block mining `txW` on top of `gW` (resp. `gA`) at time 3 under `hfW`. -/
def bW : Block := ⟨1, [txW], 3, "00", 0, "00"⟩

/-! Claim theorems. -/

/-- Claim C9: `Block.mine_block` modifies only the `nonce` and `hash` fields —
`index`, `transactions`, `timestamp` and `previous_hash` are unchanged — and
the resulting `hash` equals `calculate_hash()` of the final field values.
(`Block.__init__` establishes `hash = calculate_hash()`, the hypothesis `hinv`;
`none` means the fuel bound on the unbounded search was hit, in which case the
Python call has not returned.) -/
theorem C9_mine_block_frame (hf : HashFn) (d fuel : Nat) (b b' : Block)
    (hinv : b.hash = calculate_hash hf b)
    (h : mine_block hf d fuel b = some b') :
    b'.index = b.index ∧ b'.transactions = b.transactions ∧
    b'.timestamp = b.timestamp ∧ b'.previous_hash = b.previous_hash ∧
    b'.hash = calculate_hash hf b' := by
  obtain ⟨h1, h2, h3, h4, _, h6⟩ := mine_block_spec hf d fuel b b' h
  exact ⟨h1, h2, h3, h4, h6 hinv⟩

theorem C9_witness :
    (⟨5, [], 7, "p", 2, "00"⟩ : Block).index = (mkBlock hfW2 5 [] 7 "p").index ∧
    (⟨5, [], 7, "p", 2, "00"⟩ : Block).transactions = (mkBlock hfW2 5 [] 7 "p").transactions ∧
    (⟨5, [], 7, "p", 2, "00"⟩ : Block).timestamp = (mkBlock hfW2 5 [] 7 "p").timestamp ∧
    (⟨5, [], 7, "p", 2, "00"⟩ : Block).previous_hash = (mkBlock hfW2 5 [] 7 "p").previous_hash ∧
    (⟨5, [], 7, "p", 2, "00"⟩ : Block).hash = calculate_hash hfW2 ⟨5, [], 7, "p", 2, "00"⟩ :=
  C9_mine_block_frame hfW2 2 3 (mkBlock hfW2 5 [] 7 "p") ⟨5, [], 7, "p", 2, "00"⟩
    (by decide) (by decide)

/-- Claim C5: on an empty pending pool, `mine_pending_transactions` returns the
failure result (`False` in `blockchain.py`, `(False, "No votes to mine")` in
`app.py`) and the whole `Blockchain` state — chain length, chain contents and
pool — is returned unchanged. -/
theorem C5_mine_empty_pool :
    (∀ (hf : HashFn) (ch : BC.Blockchain) (t fuel : Nat),
      ch.pending_transactions = [] →
      BC.mine_pending_transactions hf ch t fuel = some (false, ch)) ∧
    (∀ (hf : HashFn) (ch : App.Blockchain) (t fuel : Nat),
      ch.pending_transactions = [] →
      App.mine_pending_transactions hf ch t fuel = some ((false, "No votes to mine"), ch)) := by
  constructor
  · intro hf ch t fuel hp
    simp [BC.mine_pending_transactions, hp]
  · intro hf ch t fuel hp
    simp [App.mine_pending_transactions, hp]

theorem C5_witness :
    BC.mine_pending_transactions hfW ⟨[gW], 2, []⟩ 9 0 = some (false, ⟨[gW], 2, []⟩) ∧
    App.mine_pending_transactions hfW ⟨[gA], 2, [], ["V1"]⟩ 9 0
      = some ((false, "No votes to mine"), ⟨[gA], 2, [], ["V1"]⟩) :=
  ⟨C5_mine_empty_pool.1 hfW ⟨[gW], 2, []⟩ 9 0 rfl,
   C5_mine_empty_pool.2 hfW ⟨[gA], 2, [], ["V1"]⟩ 9 0 rfl⟩

/-- Claim C3: on a non-empty pool, a `mine_pending_transactions` call that
returns reports success and has appended exactly one block whose `index` is
the previous chain length, whose `previous_hash` is the hash of the previous
chain tail, whose `transactions` are exactly the pool in insertion order, and
whose stored `hash` is the canonical digest of its stored fields and meets the
difficulty; afterwards the pool is empty.  Both implementations. -/
theorem C3_mine_success_postcondition :
    (∀ (hf : HashFn) (ch : BC.Blockchain) (t fuel : Nat) (r : Bool × BC.Blockchain),
      ch.pending_transactions ≠ [] →
      BC.mine_pending_transactions hf ch t fuel = some r →
      r.1 = true ∧ r.2.pending_transactions = [] ∧
      ∃ last blk, ch.chain.getLast? = some last ∧
        r.2.chain = ch.chain ++ [blk] ∧
        blk.index = ch.chain.length ∧
        blk.transactions = ch.pending_transactions ∧
        blk.previous_hash = last.hash ∧
        blk.hash = calculate_hash hf blk ∧
        meets_difficulty ch.difficulty blk.hash = true) ∧
    (∀ (hf : HashFn) (ch : App.Blockchain) (t fuel : Nat)
        (r : (Bool × String) × App.Blockchain),
      ch.pending_transactions ≠ [] →
      App.mine_pending_transactions hf ch t fuel = some r →
      r.1.1 = true ∧ r.2.pending_transactions = [] ∧
      ∃ last blk, ch.chain.getLast? = some last ∧
        r.2.chain = ch.chain ++ [blk] ∧
        blk.index = ch.chain.length ∧
        blk.transactions = ch.pending_transactions ∧
        blk.previous_hash = last.hash ∧
        blk.hash = calculate_hash hf blk ∧
        meets_difficulty ch.difficulty blk.hash = true) := by
  constructor
  · intro hf ch t fuel r hne hm
    have hp : ch.pending_transactions.isEmpty = false := by
      simpa [List.isEmpty_iff] using hne
    unfold BC.mine_pending_transactions at hm
    rw [if_neg (by simp [hp])] at hm
    cases hlast : ch.chain.getLast? with
    | none => simp [hlast] at hm
    | some last =>
      simp only [hlast] at hm
      cases hmb : mine_block hf ch.difficulty fuel
          (mkBlock hf ch.chain.length ch.pending_transactions t last.hash) with
      | none => simp [hmb] at hm
      | some blk =>
        simp only [hmb, Option.map_some', Option.some.injEq] at hm
        subst hm
        obtain ⟨h1, h2, h3, h4, h5, h6⟩ := mine_block_spec hf _ fuel _ blk hmb
        exact ⟨rfl, rfl, last, blk, rfl, rfl, h1, h2, h4, h6 rfl, h5⟩
  · intro hf ch t fuel r hne hm
    have hp : ch.pending_transactions.isEmpty = false := by
      simpa [List.isEmpty_iff] using hne
    unfold App.mine_pending_transactions at hm
    rw [if_neg (by simp [hp])] at hm
    cases hlast : ch.chain.getLast? with
    | none => simp [hlast] at hm
    | some last =>
      simp only [hlast] at hm
      cases hmb : mine_block hf ch.difficulty fuel
          (mkBlock hf ch.chain.length ch.pending_transactions t last.hash) with
      | none => simp [hmb] at hm
      | some blk =>
        simp only [hmb, Option.map_some', Option.some.injEq] at hm
        subst hm
        obtain ⟨h1, h2, h3, h4, h5, h6⟩ := mine_block_spec hf _ fuel _ blk hmb
        exact ⟨rfl, rfl, last, blk, rfl, rfl, h1, h2, h4, h6 rfl, h5⟩

theorem C3_witness :
    ((true, (⟨[gW, bW], 2, []⟩ : BC.Blockchain)).1 = true ∧
      (true, (⟨[gW, bW], 2, []⟩ : BC.Blockchain)).2.pending_transactions = [] ∧
      ∃ last blk, (⟨[gW], 2, [txW]⟩ : BC.Blockchain).chain.getLast? = some last ∧
        (true, (⟨[gW, bW], 2, []⟩ : BC.Blockchain)).2.chain
          = (⟨[gW], 2, [txW]⟩ : BC.Blockchain).chain ++ [blk] ∧
        blk.index = (⟨[gW], 2, [txW]⟩ : BC.Blockchain).chain.length ∧
        blk.transactions = (⟨[gW], 2, [txW]⟩ : BC.Blockchain).pending_transactions ∧
        blk.previous_hash = last.hash ∧
        blk.hash = calculate_hash hfW blk ∧
        meets_difficulty (⟨[gW], 2, [txW]⟩ : BC.Blockchain).difficulty blk.hash = true) :=
  C3_mine_success_postcondition.1 hfW ⟨[gW], 2, [txW]⟩ 3 0 (true, ⟨[gW, bW], 2, []⟩)
    (by decide) (by decide)

/-- Claim C8: immediately after `Blockchain` construction the chain holds
exactly one block: index 0, `previous_hash = "0"`, the fixed genesis marker as
its only transaction (`["Genesis Block"]` in `blockchain.py`,
`[{"message": "Genesis Block"}]` in `app.py`), its hash meeting the configured
difficulty 2; the pending pool starts empty. -/
theorem C8_genesis :
    (∀ (hf : HashFn) (t fuel : Nat) (ch : BC.Blockchain),
      BC.init hf t fuel = some ch →
      ch.difficulty = 2 ∧ ch.pending_transactions = [] ∧
      ∃ g, ch.chain = [g] ∧ g.index = 0 ∧ g.previous_hash = "0" ∧
        g.transactions = [Tx.genesisStr] ∧ meets_difficulty ch.difficulty g.hash = true) ∧
    (∀ (hf : HashFn) (t fuel : Nat) (ch : App.Blockchain),
      App.initChain hf t fuel = some ch →
      ch.difficulty = 2 ∧ ch.pending_transactions = [] ∧
      ∃ g, ch.chain = [g] ∧ g.index = 0 ∧ g.previous_hash = "0" ∧
        g.transactions = [Tx.genesisMsg] ∧ meets_difficulty ch.difficulty g.hash = true) := by
  constructor
  · intro hf t fuel ch h
    unfold BC.init at h
    cases hm : mine_block hf 2 fuel (mkBlock hf 0 [Tx.genesisStr] t "0") with
    | none => rw [hm] at h; cases h
    | some g =>
      rw [hm] at h
      simp only [Option.map_some', Option.some.injEq] at h
      subst h
      obtain ⟨h1, h2, h3, h4, h5, _⟩ := mine_block_spec hf 2 fuel _ g hm
      exact ⟨rfl, rfl, g, rfl, h1, h4, h2, h5⟩
  · intro hf t fuel ch h
    unfold App.initChain at h
    cases hm : mine_block hf 2 fuel (mkBlock hf 0 [Tx.genesisMsg] t "0") with
    | none => rw [hm] at h; cases h
    | some g =>
      rw [hm] at h
      simp only [Option.map_some', Option.some.injEq] at h
      subst h
      obtain ⟨h1, h2, h3, h4, h5, _⟩ := mine_block_spec hf 2 fuel _ g hm
      exact ⟨rfl, rfl, g, rfl, h1, h4, h2, h5⟩

theorem C8_witness :
    ((⟨[gW], 2, []⟩ : BC.Blockchain).difficulty = 2 ∧
      (⟨[gW], 2, []⟩ : BC.Blockchain).pending_transactions = [] ∧
      ∃ g, (⟨[gW], 2, []⟩ : BC.Blockchain).chain = [g] ∧ g.index = 0 ∧
        g.previous_hash = "0" ∧ g.transactions = [Tx.genesisStr] ∧
        meets_difficulty (⟨[gW], 2, []⟩ : BC.Blockchain).difficulty g.hash = true) ∧
    ((⟨[gA], 2, [], []⟩ : App.Blockchain).difficulty = 2 ∧
      (⟨[gA], 2, [], []⟩ : App.Blockchain).pending_transactions = [] ∧
      ∃ g, (⟨[gA], 2, [], []⟩ : App.Blockchain).chain = [g] ∧ g.index = 0 ∧
        g.previous_hash = "0" ∧ g.transactions = [Tx.genesisMsg] ∧
        meets_difficulty (⟨[gA], 2, [], []⟩ : App.Blockchain).difficulty g.hash = true) :=
  ⟨C8_genesis.1 hfW 1 0 ⟨[gW], 2, []⟩ (by decide),
   C8_genesis.2 hfW 1 0 ⟨[gA], 2, [], []⟩ (by decide)⟩

/-- Claim C4: `is_chain_valid` is a pure function of the chain contents;
it returns `True` exactly when for every index `i ≥ 1` the stored hash of
`chain[i]` equals the recomputed digest and `chain[i].previous_hash` equals
`chain[i-1].hash`; on failure it stops at the first failing index, the hash
check taking precedence over the link check there (the report type records the
index printed by `blockchain.py` before `return False`); in particular
mutating the nonce of a stored block (so that its recomputed digest no longer
matches) makes validation report a hash mismatch at exactly that index. -/
theorem C4_validate_chain :
    (∀ (hf : HashFn) (cl : List Block),
      is_chain_valid hf cl = true ↔
        ∀ (i : Nat) (b p : Block), 1 ≤ i → cl[i]? = some b → cl[i-1]? = some p →
          b.hash = calculate_hash hf b ∧ b.previous_hash = p.hash) ∧
    (∀ (hf : HashFn) (cl : List Block) (i : Nat) (b p : Block),
      1 ≤ i → cl[i]? = some b → cl[i-1]? = some p →
      (∀ (j : Nat) (b' p' : Block), 1 ≤ j → j < i → cl[j]? = some b' → cl[j-1]? = some p' →
        b'.hash = calculate_hash hf b' ∧ b'.previous_hash = p'.hash) →
      ¬ (b.hash = calculate_hash hf b ∧ b.previous_hash = p.hash) →
      validate_chain hf cl =
        (if b.hash = calculate_hash hf b then .linkMismatch i else .hashMismatch i)) ∧
    (∀ (hf : HashFn) (cl : List Block) (i n : Nat) (b : Block),
      is_chain_valid hf cl = true → 1 ≤ i → cl[i]? = some b →
      hf b.index b.transactions b.timestamp b.previous_hash n ≠ b.hash →
      validate_chain hf (cl.set i { b with nonce := n }) = .hashMismatch i) := by
  refine ⟨?_, ?_, ?_⟩
  · intro hf cl
    exact (is_chain_valid_iff_validate hf cl).trans (validate_chain_eq_valid_iff hf cl)
  · intro hf cl i b p h1 hb hp hgood hbad
    exact validate_chain_first_failure hf cl i b p h1 hb hp hgood hbad
  · intro hf cl i n b hvalid h1 hb hne
    have hall := (validate_chain_eq_valid_iff hf cl).mp
      ((is_chain_valid_iff_validate hf cl).mp hvalid)
    have hlt : i < cl.length := by
      by_contra hge
      rw [List.getElem?_eq_none (by omega)] at hb
      cases hb
    have hplt : i - 1 < cl.length := by omega
    obtain ⟨p, hp⟩ : ∃ p, cl[i-1]? = some p := ⟨_, List.getElem?_eq_getElem hplt⟩
    have hbi : (cl.set i { b with nonce := n })[i]? = some { b with nonce := n } :=
      List.getElem?_set_eq_of_lt _ hlt
    have hpi : (cl.set i { b with nonce := n })[i-1]? = some p := by
      rw [List.getElem?_set_ne (by omega : i ≠ i - 1)]
      exact hp
    have hgood' : ∀ (j : Nat) (b' p' : Block), 1 ≤ j → j < i →
        (cl.set i { b with nonce := n })[j]? = some b' →
        (cl.set i { b with nonce := n })[j-1]? = some p' →
        b'.hash = calculate_hash hf b' ∧ b'.previous_hash = p'.hash := by
      intro j b' p' hj1 hj2 hjb hjp
      rw [List.getElem?_set_ne (by omega : i ≠ j)] at hjb
      rw [List.getElem?_set_ne (by omega : i ≠ j - 1)] at hjp
      exact hall j b' p' hj1 hjb hjp
    have hbad : ¬ (({ b with nonce := n } : Block).hash
        = calculate_hash hf { b with nonce := n } ∧
        ({ b with nonce := n } : Block).previous_hash = p.hash) := by
      rintro ⟨hh, _⟩
      exact hne hh.symm
    have hrep := validate_chain_first_failure hf (cl.set i { b with nonce := n }) i
      { b with nonce := n } p h1 hbi hpi hgood' hbad
    rw [hrep, if_neg (fun hh => hne hh.symm)]

theorem C4_witness :
    (bW.hash = calculate_hash hfW bW ∧ bW.previous_hash = gW.hash) ∧
    validate_chain hfW [gW, ⟨1, [txW], 3, "00", 1, "00"⟩] =
      (if (⟨1, [txW], 3, "00", 1, "00"⟩ : Block).hash
          = calculate_hash hfW ⟨1, [txW], 3, "00", 1, "00"⟩
        then .linkMismatch 1 else .hashMismatch 1) ∧
    validate_chain hfW ([gW, bW].set 1 { bW with nonce := 1 }) = .hashMismatch 1 :=
  ⟨(C4_validate_chain.1 hfW [gW, bW]).mp (by decide) 1 bW gW (by decide) (by decide) (by decide),
   C4_validate_chain.2.1 hfW [gW, ⟨1, [txW], 3, "00", 1, "00"⟩] 1
     ⟨1, [txW], 3, "00", 1, "00"⟩ gW (by decide) (by decide) (by decide)
     (by intro j b' p' hj1 hj2 hjb hjp; exact absurd hj1 (by omega)) (by decide),
   C4_validate_chain.2.2 hfW [gW, bW] 1 1 bW (by decide) (by decide) (by decide) (by decide)⟩

/-- Claim C6: whenever `cast_vote` returns one of the rejections — not
registered, invalid token, invalid candidate, already voted — the whole state
(voter registry, pending pool, chain) is returned exactly unchanged.  In
`voting_system.py` the rejections are the four message strings; in `app.py`
every rejection carries `success = False`. -/
theorem C6_rejected_cast_vote_pure :
    (∀ (s : VS.Sys) (vid token cand : String) (t : Nat),
      ((VS.cast_vote s vid token cand t).1 = "Voter not registered" ∨
       (VS.cast_vote s vid token cand t).1 = "Invalid token" ∨
       (VS.cast_vote s vid token cand t).1 = "Invalid candidate" ∨
       (VS.cast_vote s vid token cand t).1 = "Voter has already cast a vote") →
      (VS.cast_vote s vid token cand t).2 = s) ∧
    (∀ (s : App.Sys) (vid token cand : String) (t : Nat),
      (App.cast_vote s vid token cand t).1.1 = false →
      (App.cast_vote s vid token cand t).2 = s) := by
  constructor
  · intro s vid token cand t
    cases hv : dlookup s.voters vid with
    | none =>
      rw [VS.cast_vote_not_registered s vid token cand t hv]
      intro _
      rfl
    | some r =>
      cases hb1 : VS.verify_token s vid token with
      | false =>
        rw [VS.cast_vote_bad_token s vid token cand t r hv hb1]
        intro _
        rfl
      | true =>
        cases hb2 : VS.candidates.contains cand with
        | false =>
          rw [VS.cast_vote_bad_candidate s vid token cand t r hv hb1 hb2]
          intro _
          rfl
        | true =>
          cases hb3 : (r.voted || has_voter_voted s.blockchain.chain vid
              || (dlookup s.pending_votes vid).isSome) with
          | true =>
            rw [VS.cast_vote_already s vid token cand t r hv hb1 hb2 hb3]
            intro _
            rfl
          | false =>
            rw [VS.cast_vote_success s vid token cand t r hv hb1 hb2 hb3]
            intro hrej
            exfalso
            rcases hrej with h | h | h | h <;> simp [VS.acceptMsg] at h
  · intro s vid token cand t
    cases hb1 : (App.verify_voter s vid token).1 with
    | false =>
      rw [App.cast_vote_fail_verify s vid token cand t hb1]
      intro _
      rfl
    | true =>
      cases hb2 : App.candidates.contains cand with
      | false =>
        rw [App.cast_vote_bad_candidateA s vid token cand t hb1 hb2]
        intro _
        rfl
      | true =>
        rw [App.cast_vote_to_add s vid token cand t hb1 hb2]
        cases hb3 : s.blockchain.voted_voters.contains vid with
        | true =>
          rw [App.add_vote_already s.blockchain vid cand t hb3]
          intro _
          rfl
        | false =>
          rw [App.add_vote_ok s.blockchain vid cand t hb3]
          intro hfalse
          simp at hfalse

theorem C6_witness :
    (VS.cast_vote ⟨⟨[gW], 2, []⟩, [], []⟩ "V2" "wrong-token" "Alice" 5).2
      = (⟨⟨[gW], 2, []⟩, [], []⟩ : VS.Sys) ∧
    (App.cast_vote ⟨⟨[gA], 2, [], []⟩, [("V2", "V2-tok")]⟩ "V2" "wrong-token" "Alice" 5).2
      = (⟨⟨[gA], 2, [], []⟩, [("V2", "V2-tok")]⟩ : App.Sys) :=
  ⟨C6_rejected_cast_vote_pure.1 ⟨⟨[gW], 2, []⟩, [], []⟩ "V2" "wrong-token" "Alice" 5
      (Or.inl (by decide)),
   C6_rejected_cast_vote_pure.2 ⟨⟨[gA], 2, [], []⟩, [("V2", "V2-tok")]⟩
      "V2" "wrong-token" "Alice" 5 (by decide)⟩

/-- The operation sequence register / cast / mine used by the witnesses. -/
def opsV : List VS.Op := [.register "V1" 1, .castVote "V1" "V1-tok" "Alice" 2, .mine 3 0]

/-- The `voting_system.py` state reached by `opsV` under `hfW`, `tgW`. -/
def sV : VS.Sys := ⟨⟨[gW, bW], 2, []⟩, [("V1", ⟨"V1-tok", true⟩)], []⟩

/-- The same operation sequence for the `app.py` machine. -/
def opsA : List App.Op := [.register "V1" 1, .castVote "V1" "V1-tok" "Alice" 2, .mine 3 0]

/-- The `app.py` state reached by `opsA` under `hfW`, `tgW`. -/
def sA : App.Sys := ⟨⟨[gA, bW], 2, [], ["V1"]⟩, [("V1", "V1-tok")]⟩

/-- Claim C1: in every reachable state of either system, each voter has at
most one vote record across the pending pool and all mined blocks combined;
and a second `cast_vote` by a voter whose earlier vote was already mined
(valid token, valid candidate, pool cleared) is rejected with the
already-voted rejection, leaving the state unchanged. -/
theorem C1_one_vote_per_voter :
    (∀ (hf : HashFn) (tg : TokenGen) (s : VS.Sys), VS.Reachable hf tg s →
      ∀ v, countBy v (s.blockchain.pending_transactions ++ chainTxs s.blockchain.chain) ≤ 1) ∧
    (∀ (s : VS.Sys) (vid token cand : String) (t : Nat),
      (∃ tx ∈ chainTxs s.blockchain.chain, isVoteBy vid tx = true) →
      VS.verify_token s vid token = true →
      VS.candidates.contains cand = true →
      VS.cast_vote s vid token cand t = ("Voter has already cast a vote", s)) ∧
    (∀ (hf : HashFn) (tg : TokenGen) (s : App.Sys), App.Reachable hf tg s →
      ∀ v, countBy v (s.blockchain.pending_transactions ++ chainTxs s.blockchain.chain) ≤ 1) ∧
    (∀ (hf : HashFn) (tg : TokenGen) (s : App.Sys) (vid token cand : String) (t : Nat),
      App.Reachable hf tg s →
      (∃ tx ∈ chainTxs s.blockchain.chain, isVoteBy vid tx = true) →
      (App.verify_voter s vid token).1 = true →
      App.candidates.contains cand = true →
      App.cast_vote s vid token cand t = ((false, "This voter has already voted"), s)) := by
  refine ⟨?_, ?_, ?_, ?_⟩
  · intro hf tg s hreach v
    exact (VS.reachable_Inv hf tg s hreach).1 v
  · intro s vid token cand t hex hver hcand
    have hhv : has_voter_voted s.blockchain.chain vid = true :=
      (has_voter_voted_eq_true_iff _ _).mpr hex
    cases hv : dlookup s.voters vid with
    | none => simp [VS.verify_token, hv] at hver
    | some r =>
      exact VS.cast_vote_already s vid token cand t r hv hver hcand (by simp [hhv])
  · intro hf tg s hreach v
    exact (App.reachable_InvA hf tg s hreach).1 v
  · intro hf tg s vid token cand t hreach hex hver hcand
    obtain ⟨_, hmem, _⟩ := App.reachable_InvA hf tg s hreach
    obtain ⟨tx, htx, hvb⟩ := hex
    have hvv : vid ∈ s.blockchain.voted_voters :=
      hmem vid tx (List.mem_append_right _ htx) hvb
    have hcont : s.blockchain.voted_voters.contains vid = true := by simpa using hvv
    rw [App.cast_vote_to_add s vid token cand t hver hcand,
      App.add_vote_already s.blockchain vid cand t hcont]

theorem C1_witness :
    countBy "V1" (sV.blockchain.pending_transactions ++ chainTxs sV.blockchain.chain) ≤ 1 ∧
    VS.cast_vote sV "V1" "V1-tok" "Bob" 4 = ("Voter has already cast a vote", sV) ∧
    countBy "V1" (sA.blockchain.pending_transactions ++ chainTxs sA.blockchain.chain) ≤ 1 ∧
    App.cast_vote sA "V1" "V1-tok" "Bob" 4 = ((false, "This voter has already voted"), sA) :=
  ⟨C1_one_vote_per_voter.1 hfW tgW sV ⟨1, 0, opsV, by decide⟩ "V1",
   C1_one_vote_per_voter.2.1 sV "V1" "V1-tok" "Bob" 4
     ⟨txW, by decide, by decide⟩ (by decide) (by decide),
   C1_one_vote_per_voter.2.2.1 hfW tgW sA ⟨1, 0, opsA, by decide⟩ "V1",
   C1_one_vote_per_voter.2.2.2 hfW tgW sA "V1" "V1-tok" "Bob" 4 ⟨1, 0, opsA, by decide⟩
     ⟨txW, by decide, by decide⟩ (by decide) (by decide)⟩

/-- Claim C10: in every reachable state of `voting_system.py`, the keys of
`pending_votes` are exactly the voter ids occurring in the records of the
blockchain's pending pool, and a key's record is the very record sitting in
the pool. -/
theorem C10_pending_stores_sync :
    ∀ (hf : HashFn) (tg : TokenGen) (s : VS.Sys), VS.Reachable hf tg s →
      ∀ (v : String) (tx : Tx),
        ((dlookup s.pending_votes v).isSome = true ↔
          ∃ tx' ∈ s.blockchain.pending_transactions, isVoteBy v tx' = true) ∧
        (dlookup s.pending_votes v = some tx →
          tx ∈ s.blockchain.pending_transactions ∧ isVoteBy v tx = true) := by
  intro hf tg s hreach v tx
  obtain ⟨_, hpv, hpv2, _⟩ := VS.reachable_Inv hf tg s hreach
  refine ⟨⟨?_, ?_⟩, ?_⟩
  · intro hsome
    cases hl : dlookup s.pending_votes v with
    | none => rw [hl] at hsome; cases hsome
    | some w =>
      obtain ⟨hmem, hvb⟩ := hpv v w hl
      exact ⟨w, hmem, hvb⟩
  · rintro ⟨tx', hmem, hvb⟩
    exact hpv2 v tx' hmem hvb
  · intro hl
    exact hpv v tx hl

/-- The `voting_system.py` state reached after register and cast, before mining. -/
def sV1 : VS.Sys := ⟨⟨[gW], 2, [txW]⟩, [("V1", ⟨"V1-tok", true⟩)], [("V1", txW)]⟩

/-- The two operations reaching `sV1`. -/
def opsV1 : List VS.Op := [.register "V1" 1, .castVote "V1" "V1-tok" "Alice" 2]

theorem C10_witness :
    ((dlookup sV1.pending_votes "V1").isSome = true ↔
      ∃ tx' ∈ sV1.blockchain.pending_transactions, isVoteBy "V1" tx' = true) ∧
    (txW ∈ sV1.blockchain.pending_transactions ∧ isVoteBy "V1" txW = true) :=
  ⟨(C10_pending_stores_sync hfW tgW sV1 ⟨1, 0, opsV1, by decide⟩ "V1" txW).1,
   (C10_pending_stores_sync hfW tgW sV1 ⟨1, 0, opsV1, by decide⟩ "V1" txW).2 (by decide)⟩

/-- Claim C2 counterexample: in the reachable `voting_system.py` state holding
one pending vote for Alice and no mined vote, the count the claim prescribes
(mined blocks except genesis plus the pending pool) is 1, but
`get_results` / `get_vote_counts` returns 0 for Alice — the pending pool is
not counted by this implementation. -/
theorem C2_counterexample :
    ((VS.init hfW 1 0).bind (fun s0 => VS.run hfW tgW s0 opsV1)).map
      (fun s => (VS.get_results s "Alice",
        countFor "Alice" (chainTxs (s.blockchain.chain.drop 1))
          + countFor "Alice" s.blockchain.pending_transactions))
      = some (0, 1) := by decide

/-- Claim C2 as amended: `app.py`'s `get_results` counts, for each candidate,
the vote records across every mined block except the genesis block plus every
record in the pending pool; `blockchain.py`'s `get_vote_counts` (behind
`voting_system.py`'s `get_results`) counts over the mined blocks only — the
genesis marker contributes nothing, and the pending pool is omitted. -/
theorem C2_tally_amended :
    (∀ (ch : App.Blockchain) (c : String),
      App.get_results ch c
        = countFor c (chainTxs (ch.chain.drop 1)) + countFor c ch.pending_transactions) ∧
    (∀ (s : VS.Sys) (c : String),
      VS.get_results s c = countFor c (chainTxs s.blockchain.chain)) ∧
    (∀ (hf : HashFn) (tg : TokenGen) (s : VS.Sys), VS.Reachable hf tg s →
      ∀ c, VS.get_results s c = countFor c (chainTxs (s.blockchain.chain.drop 1))) := by
  refine ⟨?_, ?_, ?_⟩
  · intro ch c
    unfold App.get_results
    rw [foldl_countTx]
    simp [countFor_append]
  · intro s c
    unfold VS.get_results get_vote_counts
    rw [foldl_countTx]
    simp
  · intro hf tg s hreach c
    obtain ⟨_, _, _, g, rest, hchain, hgt⟩ := VS.reachable_Inv hf tg s hreach
    unfold VS.get_results get_vote_counts
    rw [foldl_countTx, hchain, chainTxs_cons, countFor_append, hgt]
    simp [countFor, List.filter_cons, isVoteFor]

theorem C2_witness :
    VS.get_results sV "Alice" = countFor "Alice" (chainTxs (sV.blockchain.chain.drop 1)) :=
  C2_tally_amended.2.2 hfW tgW sV ⟨1, 0, opsV, by decide⟩ "Alice"

/-- Claim C7 counterexample: in the reachable `voting_system.py` state where
`"V1"` is registered, a second `register_voter("V1")` takes the
`raise Exception("Voter already registered")` branch (the `Except.error`
outcome, an exception escaping to the caller) instead of returning a
structured failure result. -/
theorem C7_counterexample :
    ((VS.init hfW 1 0).bind (fun s0 => VS.run hfW tgW s0 [.register "V1" 1])).map
      (fun s => (VS.register_voter tgW s "V1" 2).1)
      = some (Except.error "Voter already registered") := by rfl

/-- Claim C7 as amended: on a duplicate voter id, `app.py`'s `register_voter`
returns the structured failure `(False, "Voter already registered", None)`
with the state unchanged, whereas `voting_system.py`'s `register_voter` raises
`Exception("Voter already registered")` (modelled as the `Except.error`
outcome), also leaving the registry — including the stored token — unchanged;
on a fresh id both store a token for the voter and return it. -/
theorem C7_register_amended :
    (∀ (tg : TokenGen) (s : VS.Sys) (vid : String) (t : Nat) (r : VS.VoterRec),
      dlookup s.voters vid = some r →
      VS.register_voter tg s vid t = (Except.error "Voter already registered", s)) ∧
    (∀ (tg : TokenGen) (s : VS.Sys) (vid : String) (t : Nat),
      dlookup s.voters vid = none →
      (VS.register_voter tg s vid t).1 = Except.ok (tg vid t) ∧
      dlookup (VS.register_voter tg s vid t).2.voters vid = some ⟨tg vid t, false⟩) ∧
    (∀ (tg : TokenGen) (s : App.Sys) (vid : String) (t : Nat) (tok : String),
      dlookup s.registered_voters vid = some tok →
      App.register_voter tg s vid t = ((false, "Voter already registered", none), s)) ∧
    (∀ (tg : TokenGen) (s : App.Sys) (vid : String) (t : Nat),
      dlookup s.registered_voters vid = none →
      (App.register_voter tg s vid t).1 = (true, "Registration successful", some (tg vid t)) ∧
      dlookup (App.register_voter tg s vid t).2.registered_voters vid = some (tg vid t)) := by
  refine ⟨?_, ?_, ?_, ?_⟩
  · intro tg s vid t r h
    simp [VS.register_voter, h]
  · intro tg s vid t h
    constructor
    · simp [VS.register_voter, h]
    · simp only [VS.register_voter, h]
      exact dlookup_append_single_self s.voters vid _ h
  · intro tg s vid t tok h
    simp [App.register_voter, h]
  · intro tg s vid t h
    constructor
    · simp [App.register_voter, h]
    · simp only [App.register_voter, h]
      exact dlookup_append_single_self s.registered_voters vid _ h

theorem C7_witness :
    VS.register_voter tgW sV1 "V1" 9 = (Except.error "Voter already registered", sV1) ∧
    ((VS.register_voter tgW ⟨⟨[gW], 2, []⟩, [], []⟩ "V2" 5).1 = Except.ok (tgW "V2" 5) ∧
      dlookup (VS.register_voter tgW ⟨⟨[gW], 2, []⟩, [], []⟩ "V2" 5).2.voters "V2"
        = some ⟨tgW "V2" 5, false⟩) ∧
    App.register_voter tgW sA "V1" 9 = ((false, "Voter already registered", none), sA) ∧
    ((App.register_voter tgW ⟨⟨[gA], 2, [], []⟩, []⟩ "V2" 5).1
        = (true, "Registration successful", some (tgW "V2" 5)) ∧
      dlookup (App.register_voter tgW ⟨⟨[gA], 2, [], []⟩, []⟩ "V2" 5).2.registered_voters "V2"
        = some (tgW "V2" 5)) :=
  ⟨C7_register_amended.1 tgW sV1 "V1" 9 ⟨"V1-tok", true⟩ (by decide),
   C7_register_amended.2.1 tgW ⟨⟨[gW], 2, []⟩, [], []⟩ "V2" 5 (by decide),
   C7_register_amended.2.2.1 tgW sA "V1" 9 "V1-tok" (by decide),
   C7_register_amended.2.2.2 tgW ⟨⟨[gA], 2, [], []⟩, []⟩ "V2" 5 (by decide)⟩

end BlockVote
